import Mathlib

/-!
Verification of the bounded FIFO buffer and its stateful-testing harness
(`stateful_testing.py`): the correct `FIFOBuffer`, the deliberately broken
`BrokenFIFOBuffer`, and the rule-based state machines that drive sequences
of operations against them while checking structural invariants.

Python lists of integers are modelled as `List Int`; a Python `None` result
becomes `Option.none`; a raised exception (`ValueError` from the validating
constructor, `IndexError` from popping or indexing an empty list, `KeyError`
from a missing dictionary key) is modelled by `Except`/`Option` failure.
-/

set_option autoImplicit false

/-- The correct FIFO buffer with a maximum length constraint
(`FIFOBuffer` in the source): `max_length` is the Python int passed to the
constructor, `buffer` the underlying Python list. -/
structure FIFOBuffer where
  max_length : Int
  buffer : List Int
deriving Repr, DecidableEq

namespace FIFOBuffer

/-- `FIFOBuffer.__init__`: raises `ValueError` when `max_length <= 0`,
otherwise yields a buffer with that `max_length` and an empty list. -/
def init (max_length : Int) : Except String FIFOBuffer :=
  if max_length ≤ 0 then .error "max_length must be positive"
  else .ok ⟨max_length, []⟩

/-- `FIFOBuffer.add`: when `len(buffer) >= max_length`, pop the oldest item
(index 0) before appending; otherwise just append. -/
def add (b : FIFOBuffer) (item : Int) : FIFOBuffer :=
  if (b.buffer.length : Int) ≥ b.max_length then
    ⟨b.max_length, b.buffer.tail ++ [item]⟩
  else
    ⟨b.max_length, b.buffer ++ [item]⟩

/-- `FIFOBuffer.remove`: returns `None` on an empty buffer and leaves it
unchanged; otherwise pops and returns the oldest item. The pair is
(returned value, buffer after the call). -/
def remove (b : FIFOBuffer) : Option Int × FIFOBuffer :=
  match b.buffer with
  | [] => (none, b)
  | x :: xs => (some x, ⟨b.max_length, xs⟩)

/-- `FIFOBuffer.peek`: returns `None` on an empty buffer, otherwise the
oldest item, without mutation. -/
def peek (b : FIFOBuffer) : Option Int :=
  match b.buffer with
  | [] => none
  | x :: _ => some x

/-- `FIFOBuffer.is_empty`: `len(buffer) == 0`. -/
def is_empty (b : FIFOBuffer) : Bool :=
  b.buffer.length == 0

/-- `FIFOBuffer.is_full`: `len(buffer) == max_length`. -/
def is_full (b : FIFOBuffer) : Bool :=
  (b.buffer.length : Int) == b.max_length

/-- `FIFOBuffer.size`: `len(buffer)`. -/
def size (b : FIFOBuffer) : Nat :=
  b.buffer.length

end FIFOBuffer

/-- The deliberately broken FIFO buffer (`BrokenFIFOBuffer` in the source):
same attributes, weakened contract. -/
structure BrokenFIFOBuffer where
  max_length : Int
  buffer : List Int
deriving Repr, DecidableEq

namespace BrokenFIFOBuffer

/-- `BrokenFIFOBuffer.__init__`: BUG 1, no validation of `max_length`;
construction is total and never raises. -/
def init (max_length : Int) : BrokenFIFOBuffer :=
  ⟨max_length, []⟩

/-- `BrokenFIFOBuffer.add`: BUG 2, appends unconditionally with no
`max_length` check. -/
def add (b : BrokenFIFOBuffer) (item : Int) : BrokenFIFOBuffer :=
  ⟨b.max_length, b.buffer ++ [item]⟩

/-- `BrokenFIFOBuffer.remove`: BUG 3, `buffer.pop(0)` with no empty check;
`none` models the `IndexError` raised on an empty buffer. -/
def remove (b : BrokenFIFOBuffer) : Option (Int × BrokenFIFOBuffer) :=
  match b.buffer with
  | [] => none
  | x :: xs => some (x, ⟨b.max_length, xs⟩)

/-- `BrokenFIFOBuffer.peek`: BUG 4, `buffer[0]` with no empty check;
`none` models the `IndexError` raised on an empty buffer. -/
def peek (b : BrokenFIFOBuffer) : Option Int :=
  match b.buffer with
  | [] => none
  | x :: _ => some x

/-- `BrokenFIFOBuffer.is_empty`: `len(buffer) == 0`. -/
def is_empty (b : BrokenFIFOBuffer) : Bool :=
  b.buffer.length == 0

/-- `BrokenFIFOBuffer.is_full`: `len(buffer) == max_length`. -/
def is_full (b : BrokenFIFOBuffer) : Bool :=
  (b.buffer.length : Int) == b.max_length

/-- `BrokenFIFOBuffer.size`: `len(buffer)`. -/
def size (b : BrokenFIFOBuffer) : Nat :=
  b.buffer.length

end BrokenFIFOBuffer

/-- Fold `FIFOBuffer.add` over a list of items, the head added first:
a sequence of `add` calls with no intervening removes. -/
def FIFOBuffer.addAll (b : FIFOBuffer) (vs : List Int) : FIFOBuffer :=
  vs.foldl FIFOBuffer.add b

/-- `n` successive `remove()` calls, collecting the returned values in call
order together with the final buffer. -/
def FIFOBuffer.removeSeq : FIFOBuffer → Nat → List (Option Int) × FIFOBuffer
  | b, 0 => ([], b)
  | b, n + 1 =>
    let r := b.remove
    let rs := FIFOBuffer.removeSeq r.2 n
    (r.1 :: rs.1, rs.2)

/-- The operations of `FIFOBufferStateMachine`, one per `@rule` method. -/
inductive MOp where
  | initBuffer (max_length : Int)
  | addItem (item : Int)
  | removeItem
  | peekItem
  | checkEmpty
  | checkFull
  | checkSize
deriving Repr, DecidableEq

/-- The mutable state of `FIFOBufferStateMachine`: an optional buffer
(`self.buffer`, starting as `None`) and `self.max_length` (starting as 0). -/
structure MState where
  buffer : Option FIFOBuffer
  max_length : Int
deriving Repr, DecidableEq

/-- `FIFOBufferStateMachine.__init__`: `buffer = None`, `max_length = 0`. -/
def MState.initial : MState :=
  ⟨none, 0⟩

/-- One rule of `FIFOBufferStateMachine`. `initialize_buffer` stores the new
`max_length` and constructs a `FIFOBuffer` (whose constructor can raise);
every other rule is a no-op when `self.buffer is None`, and the query rules
call their query and discard the result. -/
def mstep (s : MState) : MOp → Except String MState
  | .initBuffer m =>
    match FIFOBuffer.init m with
    | .ok b => .ok ⟨some b, m⟩
    | .error e => .error e
  | .addItem item => .ok ⟨s.buffer.map (fun b => b.add item), s.max_length⟩
  | .removeItem => .ok ⟨s.buffer.map (fun b => b.remove.2), s.max_length⟩
  | .peekItem => .ok s
  | .checkEmpty => .ok s
  | .checkFull => .ok s
  | .checkSize => .ok s

/-- Run a sequence of rules from a machine state, stopping at the first
raised error. -/
def mrun (s : MState) : List MOp → Except String MState
  | [] => .ok s
  | op :: ops =>
    match mstep s op with
    | .ok s' => mrun s' ops
    | .error e => .error e

/-- The generation constraint of the correct machine: every
`initialize_buffer` rule draws `max_length` from a positive range
(`st.integers(min_value=1, max_value=10)`); here only positivity matters. -/
def allInitPos : List MOp → Bool
  | [] => true
  | .initBuffer m :: ops => decide (0 < m) && allInitPos ops
  | _ :: ops => allInitPos ops

/-- `FIFOBufferStateMachine.buffer_length_invariant` and
`buffer_not_negative`, as one predicate on the machine state: when a buffer
exists, `0 <= size() <= self.max_length`. -/
def machineInv (s : MState) : Bool :=
  match s.buffer with
  | none => true
  | some b => decide ((0 : Int) ≤ (b.size : Int)) && decide ((b.size : Int) ≤ s.max_length)

/-- The operations of `BrokenFIFOBufferStateMachine`, one per `@rule`
method. Handle-carrying rules take the `buffer_key` drawn from the
`Buffer_Keys` bundle. -/
inductive BOp where
  | initBuffer (max_length : Int)
  | addItem (buffer_key : Int) (item : Int)
  | checkEmpty (buffer_key : Int)
  | checkFull (buffer_key : Int)
  | checkSize (buffer_key : Int)
deriving Repr, DecidableEq

/-- First-match lookup in the registry, modelling `buffer_map[key]` on a
Python dict kept as an insertion-ordered association list. -/
def lookupMap : List (Int × BrokenFIFOBuffer) → Int → Option BrokenFIFOBuffer
  | [], _ => none
  | (k, b) :: rest, key => if k == key then some b else lookupMap rest key

/-- In-place update of an existing key, appending when the key is absent,
modelling `buffer_map[key] = b`. -/
def updateMap : List (Int × BrokenFIFOBuffer) → Int → BrokenFIFOBuffer →
    List (Int × BrokenFIFOBuffer)
  | [], key, b => [(key, b)]
  | (k, b0) :: rest, key, b =>
    if k == key then (key, b) :: rest else (k, b0) :: updateMap rest key b

/-- The mutable state of `BrokenFIFOBufferStateMachine`: the `Buffer_Keys`
bundle (every value ever returned by `initialize_buffer`, in order) and the
`buffer_map` registry. -/
structure BMState where
  keys : List Int
  buffer_map : List (Int × BrokenFIFOBuffer)
deriving Repr, DecidableEq

/-- `BrokenFIFOBufferStateMachine.__init__`: empty bundle, empty registry. -/
def BMState.initial : BMState :=
  ⟨[], []⟩

/-- `BrokenFIFOBufferStateMachine.initialize_buffer`: constructs a
`BrokenFIFOBuffer` only when `max_length` is not already a key of
`buffer_map`, then returns `max_length` (which the bundle records).
Result is (returned handle, state after the rule). -/
def BMState.initBuffer (s : BMState) (max_length : Int) : Int × BMState :=
  match lookupMap s.buffer_map max_length with
  | some _ => (max_length, ⟨s.keys ++ [max_length], s.buffer_map⟩)
  | none =>
    (max_length,
     ⟨s.keys ++ [max_length], s.buffer_map ++ [(max_length, BrokenFIFOBuffer.init max_length)]⟩)

/-- Whether the generator can emit an operation in a state: `initialize_buffer`
is always eligible; every other rule consumes a `buffer_key` from the
`Buffer_Keys` bundle, so it is only generable when that key has been
returned by some earlier `initialize_buffer`. -/
def eligible (s : BMState) : BOp → Bool
  | .initBuffer _ => true
  | .addItem key _ => decide (key ∈ s.keys)
  | .checkEmpty key => decide (key ∈ s.keys)
  | .checkFull key => decide (key ∈ s.keys)
  | .checkSize key => decide (key ∈ s.keys)

/-- Whether an operation dereferences an instance handle. -/
def requiresHandle : BOp → Bool
  | .initBuffer _ => false
  | _ => true

/-- Apply one rule body of `BrokenFIFOBufferStateMachine`. `none` models a
`KeyError` from `self.buffer_map[buffer_key]` on a missing key; the query
rules call their method and discard the result. -/
def bstep (s : BMState) : BOp → Option BMState
  | .initBuffer m => some (s.initBuffer m).2
  | .addItem key item =>
    (lookupMap s.buffer_map key).map
      (fun b => ⟨s.keys, updateMap s.buffer_map key (b.add item)⟩)
  | .checkEmpty key => (lookupMap s.buffer_map key).map (fun _ => s)
  | .checkFull key => (lookupMap s.buffer_map key).map (fun _ => s)
  | .checkSize key => (lookupMap s.buffer_map key).map (fun _ => s)

/-- `BrokenFIFOBufferStateMachine.buffer_length_invariant`: every registered
buffer satisfies `size() <= max_length`. -/
def bInvLength (s : BMState) : Bool :=
  s.buffer_map.all fun kb => decide ((kb.2.size : Int) ≤ kb.2.max_length)

/-- `BrokenFIFOBufferStateMachine.buffer_not_negative`: every registered
buffer satisfies `size() >= 0`. -/
def bInvNonneg (s : BMState) : Bool :=
  s.buffer_map.all fun kb => decide ((0 : Int) ≤ (kb.2.size : Int))

/-- `BrokenFIFOBufferStateMachine.max_length_positive`: every registered
buffer satisfies `max_length > 0`. -/
def bInvMaxPos (s : BMState) : Bool :=
  s.buffer_map.all fun kb => decide (0 < kb.2.max_length)

/-- Evaluate the three `@invariant` methods in definition order, each gated
by its `@precondition` (`buffer_map` non-empty); returns the name of the
first violated invariant, if any. -/
def checkInvariants (s : BMState) : Option String :=
  if s.buffer_map.isEmpty then none
  else if bInvLength s = false then some "buffer_length_invariant"
  else if bInvNonneg s = false then some "buffer_not_negative"
  else if bInvMaxPos s = false then some "max_length_positive"
  else none

/-- Outcome of a Sequence Driver run over the broken machine. -/
inductive RunResult where
  | completed (s : BMState)
  | failed (s : BMState) (inv : String)
  | keyError (s : BMState)
  | ineligible (s : BMState)
deriving Repr, DecidableEq

/-- The Sequence Driver over `BrokenFIFOBufferStateMachine`: apply each
operation (only if the generator could have emitted it), then check every
invariant; the first violation is terminal, as is a `KeyError` or an
ineligible operation. -/
def driverRun (s : BMState) : List BOp → RunResult
  | [] => .completed s
  | op :: ops =>
    if eligible s op then
      match bstep s op with
      | none => .keyError s
      | some t =>
        match checkInvariants t with
        | some inv => .failed t inv
        | none => driverRun t ops
    else .ineligible s

/-- The spec's harness-soundness scenario: `[Initialize(3), Add(1), Add(2),
Add(3), Add(4), Add(5)]` against the faulty variant. -/
def soundnessSeq : List BOp :=
  [.initBuffer 3, .addItem 3 1, .addItem 3 2, .addItem 3 3, .addItem 3 4, .addItem 3 5]

/-- The size of the key-3 buffer at the end of a run, when the run failed. -/
def failedSizeAtKey3 (r : RunResult) : Option Nat :=
  match r with
  | .failed s _ => (lookupMap s.buffer_map 3).map BrokenFIFOBuffer.size
  | _ => none

/-- C4: constructing a `FIFOBuffer` with `max_length <= 0` raises
`ValueError` (the `InvalidConfiguration` error class), and any positive
`max_length` yields a buffer of that capacity with an empty item list,
so `size() == 0`. -/
theorem fifo_init_validates (m : Int) :
    (m ≤ 0 → FIFOBuffer.init m = .error "max_length must be positive") ∧
    (0 < m → FIFOBuffer.init m = .ok ⟨m, []⟩ ∧
      ∀ b, FIFOBuffer.init m = .ok b → b.max_length = m ∧ b.size = 0) := by
  constructor
  · intro h
    simp [FIFOBuffer.init, h]
  · intro h
    have hnot : ¬ m ≤ 0 := by omega
    refine ⟨by simp [FIFOBuffer.init, hnot], ?_⟩
    intro b hb
    simp [FIFOBuffer.init, hnot] at hb
    subst hb
    exact ⟨rfl, rfl⟩

theorem fifo_init_validates_wit :
    FIFOBuffer.init (-2) = .error "max_length must be positive" ∧
    FIFOBuffer.init 3 = .ok ⟨3, []⟩ :=
  ⟨(fifo_init_validates (-2)).1 (by decide), ((fifo_init_validates 3).2 (by decide)).1⟩

/-- C5: on an empty `FIFOBuffer`, `remove()` and `peek()` return `None`
without raising and leave the contents unchanged; on a non-empty buffer,
`remove()` removes and returns the oldest item, shrinking `size()` by
exactly one, and `peek()` returns the oldest item without mutation. -/
theorem fifo_remove_peek_semantics (b : FIFOBuffer) :
    (b.buffer = [] → b.remove = (none, b) ∧ b.peek = none) ∧
    (∀ v vs, b.buffer = v :: vs →
      b.remove = (some v, ⟨b.max_length, vs⟩) ∧
      b.remove.2.size + 1 = b.size ∧
      b.peek = some v) := by
  constructor
  · intro h
    cases b with
    | mk m buf =>
      cases h
      exact ⟨rfl, rfl⟩
  · intro v vs h
    cases b with
    | mk m buf =>
      cases h
      refine ⟨rfl, ?_, rfl⟩
      simp [FIFOBuffer.remove, FIFOBuffer.size]

theorem fifo_remove_peek_semantics_wit :
    (FIFOBuffer.remove ⟨3, []⟩ = (none, ⟨3, []⟩) ∧ FIFOBuffer.peek ⟨3, []⟩ = none) ∧
    (FIFOBuffer.remove ⟨3, [7, 8]⟩ = (some 7, ⟨3, [8]⟩)) :=
  ⟨(fifo_remove_peek_semantics ⟨3, []⟩).1 rfl,
   ((fifo_remove_peek_semantics ⟨3, [7, 8]⟩).2 7 [8] rfl).1⟩

/-- C2: `add` on a full `FIFOBuffer` (contents `v :: vs` with
`size == max_length`) evicts the oldest item and appends, giving
`vs ++ [item]`; when the buffer is not full it just appends; and whenever
the capacity invariant held before, it holds after, so `add` never pushes
`size()` past `max_length`. -/
theorem fifo_add_semantics (b : FIFOBuffer) (x : Int)
    (hpos : 0 < b.max_length) (hle : (b.size : Int) ≤ b.max_length) :
    (∀ v vs, b.buffer = v :: vs → (b.size : Int) = b.max_length →
      (b.add x).buffer = vs ++ [x]) ∧
    ((b.size : Int) < b.max_length → (b.add x).buffer = b.buffer ++ [x]) ∧
    ((b.add x).size : Int) ≤ b.max_length := by
  refine ⟨?_, ?_, ?_⟩
  · intro v vs hb hfull
    have hge : (b.buffer.length : Int) ≥ b.max_length := by
      simp [FIFOBuffer.size] at hfull
      omega
    unfold FIFOBuffer.add
    rw [if_pos hge]
    simp [hb]
  · intro hlt
    have hnot : ¬ ((b.buffer.length : Int) ≥ b.max_length) := by
      simp [FIFOBuffer.size] at hlt
      omega
    unfold FIFOBuffer.add
    rw [if_neg hnot]
  · simp only [FIFOBuffer.size] at hle
    unfold FIFOBuffer.add
    by_cases hge : (b.buffer.length : Int) ≥ b.max_length
    · rw [if_pos hge]
      have hne : b.buffer ≠ [] := by
        intro hnil
        rw [hnil] at hge
        simp at hge
        omega
      have htl : b.buffer.tail.length + 1 = b.buffer.length := by
        cases hb : b.buffer with
        | nil => exact absurd hb hne
        | cons y ys => simp [hb]
      simp only [FIFOBuffer.size, List.length_append, List.length_cons, List.length_nil]
      omega
    · rw [if_neg hge]
      simp only [FIFOBuffer.size, List.length_append, List.length_cons, List.length_nil]
      omega

theorem fifo_add_semantics_wit :
    (0 < (2 : Int) ∧ ((FIFOBuffer.size ⟨2, [5, 6]⟩ : Int) ≤ 2)) ∧
    (FIFOBuffer.add ⟨2, [5, 6]⟩ 7).buffer = [6, 7] ∧
    ((FIFOBuffer.add ⟨2, [5, 6]⟩ 7).size : Int) ≤ 2 := by
  refine ⟨⟨by decide, by decide⟩, ?_, ?_⟩
  · exact (fifo_add_semantics ⟨2, [5, 6]⟩ 7 (by decide) (by decide)).1 5 [6] rfl (by decide)
  · exact (fifo_add_semantics ⟨2, [5, 6]⟩ 7 (by decide) (by decide)).2.2

/-- C10: for both buffer variants, `is_empty()` is true exactly when
`size() == 0` and `is_full()` exactly when `size() == max_length`;
hence a `BrokenFIFOBuffer` whose size exceeds its `max_length` reports
`is_full() == false`, and one with non-positive `max_length` never reports
full while non-empty. -/
theorem queries_reflect_size (b : FIFOBuffer) (c : BrokenFIFOBuffer) :
    (b.is_empty = true ↔ b.size = 0) ∧
    (b.is_full = true ↔ (b.size : Int) = b.max_length) ∧
    (c.is_empty = true ↔ c.size = 0) ∧
    (c.is_full = true ↔ (c.size : Int) = c.max_length) ∧
    (c.max_length < (c.size : Int) → c.is_full = false) ∧
    (c.max_length ≤ 0 → c.buffer ≠ [] → c.is_full = false) := by
  refine ⟨?_, ?_, ?_, ?_, ?_, ?_⟩
  · simp [FIFOBuffer.is_empty, FIFOBuffer.size]
  · simp [FIFOBuffer.is_full, FIFOBuffer.size]
  · simp [BrokenFIFOBuffer.is_empty, BrokenFIFOBuffer.size]
  · simp [BrokenFIFOBuffer.is_full, BrokenFIFOBuffer.size]
  · intro h
    simp [BrokenFIFOBuffer.is_full, BrokenFIFOBuffer.size] at h ⊢
    omega
  · intro hml hne
    have hlen : 0 < c.buffer.length := List.length_pos.mpr hne
    simp [BrokenFIFOBuffer.is_full]
    omega

theorem queries_reflect_size_wit :
    BrokenFIFOBuffer.is_full ⟨3, [1, 2, 3, 4]⟩ = false ∧
    BrokenFIFOBuffer.is_full ⟨-1, [5]⟩ = false :=
  ⟨(queries_reflect_size ⟨1, []⟩ ⟨3, [1, 2, 3, 4]⟩).2.2.2.2.1 (by decide),
   (queries_reflect_size ⟨1, []⟩ ⟨-1, [5]⟩).2.2.2.2.2 (by decide) (by decide)⟩

/-- C7: on an empty `BrokenFIFOBuffer`, `remove()` and `peek()` raise an
`IndexError` (modelled as `none` at a failing result type) instead of
returning an absent value, while on the correct `FIFOBuffer` the same
calls return an absent result without failing; and the broken constructor
accepts any capacity, including zero and negative, without validation. -/
theorem broken_empty_ops_crash (m : Int) (b : BrokenFIFOBuffer) (c : FIFOBuffer) :
    BrokenFIFOBuffer.init m = ⟨m, []⟩ ∧
    (b.buffer = [] → b.remove = none ∧ b.peek = none) ∧
    (c.buffer = [] → c.remove = (none, c) ∧ c.peek = none) := by
  refine ⟨rfl, ?_, ?_⟩
  · intro h
    cases b with
    | mk ml buf =>
      cases h
      exact ⟨rfl, rfl⟩
  · intro h
    cases c with
    | mk ml buf =>
      cases h
      exact ⟨rfl, rfl⟩

theorem broken_empty_ops_crash_wit :
    BrokenFIFOBuffer.init (-5) = ⟨-5, []⟩ ∧
    BrokenFIFOBuffer.remove ⟨-5, []⟩ = none ∧
    FIFOBuffer.remove ⟨1, []⟩ = (none, ⟨1, []⟩) :=
  ⟨(broken_empty_ops_crash (-5) ⟨-5, []⟩ ⟨1, []⟩).1,
   ((broken_empty_ops_crash (-5) ⟨-5, []⟩ ⟨1, []⟩).2.1 rfl).1,
   ((broken_empty_ops_crash (-5) ⟨-5, []⟩ ⟨1, []⟩).2.2 rfl).1⟩

lemma fifo_addAll_no_evict (vs : List Int) : ∀ b : FIFOBuffer,
    ((b.buffer.length : Int) + vs.length ≤ b.max_length) →
    (b.addAll vs).buffer = b.buffer ++ vs ∧ (b.addAll vs).max_length = b.max_length := by
  induction vs with
  | nil =>
    intro b _
    simp [FIFOBuffer.addAll]
  | cons v vs ih =>
    intro b h
    have hlt : ¬ ((b.buffer.length : Int) ≥ b.max_length) := by
      simp only [List.length_cons] at h
      push_cast at h
      omega
    have hadd : b.add v = ⟨b.max_length, b.buffer ++ [v]⟩ := by
      unfold FIFOBuffer.add
      rw [if_neg hlt]
    have hstep : b.addAll (v :: vs) = (b.add v).addAll vs := by
      simp [FIFOBuffer.addAll]
    have hside : (((b.add v).buffer.length : Int) + vs.length ≤ (b.add v).max_length) := by
      rw [hadd]
      simp only [List.length_append, List.length_cons, List.length_nil]
      simp only [List.length_cons] at h
      push_cast at h ⊢
      omega
    have hrec := ih (b.add v) hside
    rw [hstep]
    refine ⟨?_, ?_⟩
    · rw [hrec.1, hadd]
      simp
    · rw [hrec.2, hadd]

lemma fifo_removeSeq_all (vs : List Int) : ∀ b : FIFOBuffer, b.buffer = vs →
    (b.removeSeq vs.length).1 = vs.map some ∧ (b.removeSeq vs.length).2.buffer = [] := by
  induction vs with
  | nil =>
    intro b h
    simp [FIFOBuffer.removeSeq, h]
  | cons v vs ih =>
    intro b h
    have hrem : b.remove = (some v, ⟨b.max_length, vs⟩) := by
      cases b with
      | mk m buf =>
        cases h
        rfl
    have hrec := ih ⟨b.max_length, vs⟩ rfl
    simp only [List.length_cons, FIFOBuffer.removeSeq, hrem, List.map_cons]
    exact ⟨by rw [hrec.1], hrec.2⟩

/-- C6: starting from an empty `FIFOBuffer` and adding `v1, ..., vn` with
`n <= max_length` and no intervening removes (so no eviction occurs),
`n` successive `remove()` calls return exactly `v1, ..., vn` in order. -/
theorem fifo_order (b : FIFOBuffer) (vs : List Int)
    (hempty : b.buffer = []) (hlen : (vs.length : Int) ≤ b.max_length) :
    ((b.addAll vs).removeSeq vs.length).1 = vs.map some ∧
    ((b.addAll vs).removeSeq vs.length).2.buffer = [] := by
  have hside : ((b.buffer.length : Int) + vs.length ≤ b.max_length) := by
    rw [hempty]
    simpa using hlen
  have hall := fifo_addAll_no_evict vs b hside
  have hbuf : (b.addAll vs).buffer = vs := by
    rw [hall.1, hempty]
    rfl
  exact fifo_removeSeq_all vs (b.addAll vs) hbuf

theorem fifo_order_wit :
    FIFOBuffer.buffer ⟨3, []⟩ = [] ∧ ((3 : Int) ≤ 3) ∧
    ((FIFOBuffer.addAll ⟨3, []⟩ [10, 20, 30]).removeSeq 3).1 = [some 10, some 20, some 30] :=
  ⟨rfl, by decide, (fifo_order ⟨3, []⟩ [10, 20, 30] rfl (by decide)).1⟩

lemma fifo_add_preserves (b : FIFOBuffer) (x : Int)
    (hpos : 0 < b.max_length) (hle : (b.size : Int) ≤ b.max_length) :
    (b.add x).max_length = b.max_length ∧ ((b.add x).size : Int) ≤ b.max_length := by
  simp only [FIFOBuffer.size] at hle
  unfold FIFOBuffer.add
  by_cases hge : (b.buffer.length : Int) ≥ b.max_length
  · rw [if_pos hge]
    have hne : b.buffer ≠ [] := by
      intro hnil
      rw [hnil] at hge
      simp at hge
      omega
    have htl : b.buffer.tail.length + 1 = b.buffer.length := by
      cases hb : b.buffer with
      | nil => exact absurd hb hne
      | cons y ys => simp [hb]
    refine ⟨rfl, ?_⟩
    simp only [FIFOBuffer.size, List.length_append, List.length_cons, List.length_nil]
    omega
  · rw [if_neg hge]
    refine ⟨rfl, ?_⟩
    simp only [FIFOBuffer.size, List.length_append, List.length_cons, List.length_nil]
    omega

lemma fifo_remove_preserves (b : FIFOBuffer) :
    b.remove.2.max_length = b.max_length ∧ b.remove.2.size ≤ b.size := by
  cases hb : b.buffer with
  | nil =>
    have : b.remove = (none, b) := by
      cases b with
      | mk m buf =>
        cases hb
        rfl
    rw [this]
    exact ⟨rfl, le_refl _⟩
  | cons v vs =>
    have : b.remove = (some v, ⟨b.max_length, vs⟩) := by
      cases b with
      | mk m buf =>
        cases hb
        rfl
    rw [this]
    simp [FIFOBuffer.size, hb]

lemma mrun_inv (ops : List MOp) : ∀ s : MState,
    allInitPos ops = true →
    (∀ b, s.buffer = some b →
      b.max_length = s.max_length ∧ 0 < s.max_length ∧ (b.size : Int) ≤ s.max_length) →
    ∃ t, mrun s ops = .ok t ∧
      (∀ b, t.buffer = some b →
        b.max_length = t.max_length ∧ 0 < t.max_length ∧ (b.size : Int) ≤ t.max_length) := by
  induction ops with
  | nil =>
    intro s _ hinv
    exact ⟨s, rfl, hinv⟩
  | cons op ops ih =>
    intro s hall hinv
    cases op with
    | initBuffer m =>
      have hm : 0 < m := by
        simp [allInitPos] at hall
        exact hall.1
      have hops : allInitPos ops = true := by
        simp [allInitPos] at hall
        exact hall.2
      have hnot : ¬ m ≤ 0 := by omega
      have hstep : mstep s (.initBuffer m) = .ok ⟨some ⟨m, []⟩, m⟩ := by
        simp [mstep, FIFOBuffer.init, hnot]
      have hrun : mrun s (.initBuffer m :: ops) = mrun ⟨some ⟨m, []⟩, m⟩ ops := by
        simp [mrun, hstep]
      rw [hrun]
      apply ih ⟨some ⟨m, []⟩, m⟩ hops
      intro b hb
      simp at hb
      subst hb
      refine ⟨rfl, hm, ?_⟩
      simp [FIFOBuffer.size]
      omega
    | addItem x =>
      have hops : allInitPos ops = true := by
        simpa [allInitPos] using hall
      have hrun : mrun s (.addItem x :: ops) =
          mrun ⟨s.buffer.map (fun b => b.add x), s.max_length⟩ ops := by
        simp [mrun, mstep]
      rw [hrun]
      apply ih _ hops
      intro b' hb'
      cases hbuf : s.buffer with
      | none =>
        rw [hbuf] at hb'
        simp at hb'
      | some b =>
        rw [hbuf] at hb'
        simp at hb'
        obtain ⟨hmax, hpos, hle⟩ := hinv b hbuf
        have hp : 0 < b.max_length := by omega
        have hl : (b.size : Int) ≤ b.max_length := by omega
        have hpre := fifo_add_preserves b x hp hl
        subst hb'
        refine ⟨by rw [hpre.1]; exact hmax, hpos, ?_⟩
        rw [← hmax]
        exact hpre.2
    | removeItem =>
      have hops : allInitPos ops = true := by
        simpa [allInitPos] using hall
      have hrun : mrun s (.removeItem :: ops) =
          mrun ⟨s.buffer.map (fun b => b.remove.2), s.max_length⟩ ops := by
        simp [mrun, mstep]
      rw [hrun]
      apply ih _ hops
      intro b' hb'
      cases hbuf : s.buffer with
      | none =>
        rw [hbuf] at hb'
        simp at hb'
      | some b =>
        rw [hbuf] at hb'
        simp at hb'
        obtain ⟨hmax, hpos, hle⟩ := hinv b hbuf
        have hpre := fifo_remove_preserves b
        subst hb'
        refine ⟨by rw [hpre.1]; exact hmax, hpos, ?_⟩
        have hsz : (b.remove.2.size : Int) ≤ (b.size : Int) := by
          exact_mod_cast Int.ofNat_le.mpr hpre.2
        show (b.remove.2.size : Int) ≤ s.max_length
        omega
    | peekItem =>
      have hops : allInitPos ops = true := by
        simpa [allInitPos] using hall
      have hrun : mrun s (.peekItem :: ops) = mrun s ops := by
        simp [mrun, mstep]
      rw [hrun]
      exact ih s hops hinv
    | checkEmpty =>
      have hops : allInitPos ops = true := by
        simpa [allInitPos] using hall
      have hrun : mrun s (.checkEmpty :: ops) = mrun s ops := by
        simp [mrun, mstep]
      rw [hrun]
      exact ih s hops hinv
    | checkFull =>
      have hops : allInitPos ops = true := by
        simpa [allInitPos] using hall
      have hrun : mrun s (.checkFull :: ops) = mrun s ops := by
        simp [mrun, mstep]
      rw [hrun]
      exact ih s hops hinv
    | checkSize =>
      have hops : allInitPos ops = true := by
        simpa [allInitPos] using hall
      have hrun : mrun s (.checkSize :: ops) = mrun s ops := by
        simp [mrun, mstep]
      rw [hrun]
      exact ih s hops hinv

/-- C1: for every finite sequence of state-machine operations whose
initializations all use a positive capacity, the run never raises, and
after every operation the machine invariants hold: when a buffer exists,
`0 <= size() <= max_length`. (Quantifying over all such sequences covers
every prefix, hence "after every operation returns".) -/
theorem capacity_invariant (ops : List MOp) (hall : allInitPos ops = true) :
    ∃ t, mrun MState.initial ops = .ok t ∧ machineInv t = true := by
  obtain ⟨t, hrun, hinv⟩ := mrun_inv ops MState.initial hall
    (by intro b hb; simp [MState.initial] at hb)
  refine ⟨t, hrun, ?_⟩
  unfold machineInv
  cases ht : t.buffer with
  | none => rfl
  | some b =>
    obtain ⟨_, _, hle⟩ := hinv b ht
    simp only [Bool.and_eq_true, decide_eq_true_eq]
    exact ⟨Int.natCast_nonneg _, hle⟩

theorem capacity_invariant_wit :
    allInitPos [.initBuffer 3, .addItem 1, .addItem 2, .addItem 3, .addItem 4,
      .removeItem, .checkSize] = true ∧
    ∃ t, mrun MState.initial [.initBuffer 3, .addItem 1, .addItem 2, .addItem 3,
      .addItem 4, .removeItem, .checkSize] = .ok t ∧ machineInv t = true :=
  ⟨by decide, capacity_invariant _ (by decide)⟩

/-- C3 counterexample: running the Sequence Driver on the faulty variant
with `[Initialize(3), Add(1), Add(2), Add(3), Add(4), Add(5)]` fails the
capacity invariant already after the fourth `Add`, when the buffer holds
`[1, 2, 3, 4]`: the failed state has size 4, not 5, because the driver
checks invariants after every step and `Failed` is terminal, so `Add(5)`
never executes. -/
theorem harness_soundness_cex :
    failedSizeAtKey3 (driverRun BMState.initial soundnessSeq) = some 4 ∧
    failedSizeAtKey3 (driverRun BMState.initial soundnessSeq) ≠ some 5 := by
  refine ⟨rfl, ?_⟩
  decide

/-- C3 as amended: running the Sequence Driver against the faulty variant
with the scenario sequence reaches `Failed` with the capacity invariant
(`buffer_length_invariant`) violated, the failure occurring after the
fourth `Add` with the buffer at size 4 > 3; the fifth `Add` is never
executed. -/
theorem harness_soundness_amended :
    driverRun BMState.initial soundnessSeq =
      .failed ⟨[3], [(3, ⟨3, [1, 2, 3, 4]⟩)]⟩ "buffer_length_invariant" := by
  rfl

lemma lookupMap_append_of_some (l rest : List (Int × BrokenFIFOBuffer)) (k : Int)
    (b : BrokenFIFOBuffer) (h : lookupMap l k = some b) :
    lookupMap (l ++ rest) k = some b := by
  induction l with
  | nil => simp [lookupMap] at h
  | cons kb l ih =>
    obtain ⟨k0, b0⟩ := kb
    by_cases hk : k0 == k
    · simp only [lookupMap, if_pos hk] at h
      simp only [List.cons_append, lookupMap, if_pos hk]
      exact h
    · simp only [lookupMap, if_neg hk] at h
      simp only [List.cons_append, lookupMap, if_neg hk]
      exact ih h

lemma lookupMap_append_self_of_none (l : List (Int × BrokenFIFOBuffer)) (k : Int)
    (b : BrokenFIFOBuffer) (h : lookupMap l k = none) :
    lookupMap (l ++ [(k, b)]) k = some b := by
  induction l with
  | nil => simp [lookupMap]
  | cons kb l ih =>
    obtain ⟨k0, b0⟩ := kb
    by_cases hk : k0 == k
    · simp only [lookupMap, if_pos hk] at h
      simp at h
    · simp only [lookupMap, if_neg hk] at h
      simp only [List.cons_append, lookupMap, if_neg hk]
      exact ih h

lemma lookupMap_updateMap_isSome (l : List (Int × BrokenFIFOBuffer)) (key k : Int)
    (b : BrokenFIFOBuffer) (h : (lookupMap l k).isSome = true) :
    (lookupMap (updateMap l key b) k).isSome = true := by
  induction l with
  | nil => simp [lookupMap] at h
  | cons kb l ih =>
    obtain ⟨k0, b0⟩ := kb
    by_cases hkey : k0 == key
    · have hk0 : k0 = key := by simpa using hkey
      subst hk0
      simp only [updateMap, if_pos (by simp : (k0 == k0) = true)]
      by_cases hk : k0 == k
      · simp [lookupMap, hk]
      · simp only [lookupMap, if_neg hk] at h
        simp [lookupMap, hk, h]
    · simp only [updateMap, if_neg hkey]
      by_cases hk : k0 == k
      · simp [lookupMap, hk]
      · simp only [lookupMap, if_neg hk] at h
        simp only [lookupMap, if_neg hk]
        exact ih h

lemma keysReg_initBuffer (s : BMState) (m : Int)
    (hinv : ∀ k, k ∈ s.keys → (lookupMap s.buffer_map k).isSome = true) :
    ∀ k, k ∈ (s.initBuffer m).2.keys →
      (lookupMap (s.initBuffer m).2.buffer_map k).isSome = true := by
  intro k hk
  rcases hl : lookupMap s.buffer_map m with _ | b
  · simp only [BMState.initBuffer, hl] at hk ⊢
    simp only [List.mem_append, List.mem_singleton] at hk
    rcases hk with hk | hk
    · obtain ⟨b0, hb0⟩ := Option.isSome_iff_exists.mp (hinv k hk)
      rw [lookupMap_append_of_some s.buffer_map _ k b0 hb0]
      rfl
    · subst hk
      rw [lookupMap_append_self_of_none s.buffer_map k _ hl]
      rfl
  · simp only [BMState.initBuffer, hl] at hk ⊢
    simp only [List.mem_append, List.mem_singleton] at hk
    rcases hk with hk | hk
    · exact hinv k hk
    · subst hk
      rw [hl]
      rfl

lemma driverRun_cons_eligible (s : BMState) (op : BOp) (ops : List BOp) (u : BMState)
    (he : eligible s op = true) (hstep : bstep s op = some u) :
    driverRun s (op :: ops) =
      match checkInvariants u with
      | some inv => .failed u inv
      | none => driverRun u ops := by
  conv_lhs => unfold driverRun
  rw [if_pos he, hstep]

lemma bstep_eligible_total (s : BMState) (op : BOp)
    (hinv : ∀ k, k ∈ s.keys → (lookupMap s.buffer_map k).isSome = true)
    (he : eligible s op = true) :
    ∃ u, bstep s op = some u ∧
      (∀ k, k ∈ u.keys → (lookupMap u.buffer_map k).isSome = true) := by
  cases op with
  | initBuffer m =>
    exact ⟨(s.initBuffer m).2, rfl, keysReg_initBuffer s m hinv⟩
  | addItem key item =>
    have hmem : key ∈ s.keys := by
      simpa [eligible] using he
    obtain ⟨b, hb⟩ := Option.isSome_iff_exists.mp (hinv key hmem)
    refine ⟨⟨s.keys, updateMap s.buffer_map key (b.add item)⟩, by simp [bstep, hb], ?_⟩
    intro k hk
    exact lookupMap_updateMap_isSome s.buffer_map key k _ (hinv k hk)
  | checkEmpty key =>
    have hmem : key ∈ s.keys := by
      simpa [eligible] using he
    obtain ⟨b, hb⟩ := Option.isSome_iff_exists.mp (hinv key hmem)
    exact ⟨s, by simp [bstep, hb], hinv⟩
  | checkFull key =>
    have hmem : key ∈ s.keys := by
      simpa [eligible] using he
    obtain ⟨b, hb⟩ := Option.isSome_iff_exists.mp (hinv key hmem)
    exact ⟨s, by simp [bstep, hb], hinv⟩
  | checkSize key =>
    have hmem : key ∈ s.keys := by
      simpa [eligible] using he
    obtain ⟨b, hb⟩ := Option.isSome_iff_exists.mp (hinv key hmem)
    exact ⟨s, by simp [bstep, hb], hinv⟩

lemma driverRun_no_keyError (ops : List BOp) : ∀ s : BMState,
    (∀ k, k ∈ s.keys → (lookupMap s.buffer_map k).isSome = true) →
    ∀ t, driverRun s ops ≠ .keyError t := by
  induction ops with
  | nil =>
    intro s _ t
    simp [driverRun]
  | cons op ops ih =>
    intro s hinv t
    by_cases he : eligible s op = true
    · obtain ⟨u, hstep, hinvu⟩ := bstep_eligible_total s op hinv he
      rw [driverRun_cons_eligible s op ops u he hstep]
      split
      · simp
      · exact ih u hinvu t
    · unfold driverRun
      rw [if_neg he]
      simp

/-- C9: along every execution of the Sequence Driver from the initial
state, no step ever dereferences an instance missing from the registry
(the run can never end in `keyError`); and any operation that requires an
instance handle is ineligible while no Initialize has run (empty bundle),
so handle-carrying operations are never generated before the first
successful Initialize. -/
theorem eligibility_gating :
    (∀ ops t, driverRun BMState.initial ops ≠ .keyError t) ∧
    (∀ s op, requiresHandle op = true → s.keys = [] → eligible s op = false) := by
  constructor
  · intro ops t
    apply driverRun_no_keyError ops BMState.initial
    intro k hk
    simp [BMState.initial] at hk
  · intro s op hreq hkeys
    cases op with
    | initBuffer m => simp [requiresHandle] at hreq
    | addItem key item => simp [eligible, hkeys]
    | checkEmpty key => simp [eligible, hkeys]
    | checkFull key => simp [eligible, hkeys]
    | checkSize key => simp [eligible, hkeys]

theorem eligibility_gating_wit :
    driverRun BMState.initial [.addItem 3 1, .initBuffer 3] ≠ .keyError BMState.initial ∧
    eligible BMState.initial (.addItem 3 1) = false :=
  ⟨eligibility_gating.1 [.addItem 3 1, .initBuffer 3] BMState.initial,
   eligibility_gating.2 BMState.initial (.addItem 3 1) rfl rfl⟩

/-- C8: instance creation in the registry is idempotent by key:
`initialize_buffer` always returns the supplied capacity as the handle;
when the capacity is already a key of `buffer_map` it neither constructs
nor replaces a buffer (the registry and the stored instance are unchanged);
and running `initialize_buffer` twice with the same capacity leaves the
registry exactly as one call does. -/
theorem registry_idempotent (s : BMState) (m : Int) :
    (s.initBuffer m).1 = m ∧
    ((lookupMap s.buffer_map m).isSome = true →
      (s.initBuffer m).2.buffer_map = s.buffer_map) ∧
    (∀ b, lookupMap s.buffer_map m = some b →
      lookupMap (s.initBuffer m).2.buffer_map m = some b) ∧
    ((s.initBuffer m).2.initBuffer m).2.buffer_map = (s.initBuffer m).2.buffer_map := by
  rcases hl : lookupMap s.buffer_map m with _ | b
  · have hlook : lookupMap (s.buffer_map ++ [(m, BrokenFIFOBuffer.init m)]) m =
        some (BrokenFIFOBuffer.init m) :=
      lookupMap_append_self_of_none s.buffer_map m _ hl
    have h1 : s.initBuffer m =
        (m, ⟨s.keys ++ [m], s.buffer_map ++ [(m, BrokenFIFOBuffer.init m)]⟩) := by
      simp only [BMState.initBuffer, hl]
    have h2 : (⟨s.keys ++ [m], s.buffer_map ++ [(m, BrokenFIFOBuffer.init m)]⟩ :
        BMState).initBuffer m =
        (m, ⟨(s.keys ++ [m]) ++ [m], s.buffer_map ++ [(m, BrokenFIFOBuffer.init m)]⟩) := by
      simp only [BMState.initBuffer, hlook]
    refine ⟨by rw [h1], ?_, ?_, ?_⟩
    · intro h
      simp at h
    · intro b hb
      simp at hb
    · rw [h1, h2]
  · have h1 : s.initBuffer m = (m, ⟨s.keys ++ [m], s.buffer_map⟩) := by
      simp only [BMState.initBuffer, hl]
    have h2 : (⟨s.keys ++ [m], s.buffer_map⟩ : BMState).initBuffer m =
        (m, ⟨(s.keys ++ [m]) ++ [m], s.buffer_map⟩) := by
      simp only [BMState.initBuffer, hl]
    refine ⟨by rw [h1], ?_, ?_, ?_⟩
    · intro _
      rw [h1]
    · intro b0 hb0
      rw [h1]
      show lookupMap s.buffer_map m = some b0
      rw [hl]
      exact hb0
    · rw [h1, h2]

theorem registry_idempotent_wit :
    (BMState.initBuffer ⟨[3], [(3, ⟨3, [1]⟩)]⟩ 3).1 = 3 ∧
    (BMState.initBuffer ⟨[3], [(3, ⟨3, [1]⟩)]⟩ 3).2.buffer_map = [(3, ⟨3, [1]⟩)] ∧
    lookupMap (BMState.initBuffer ⟨[3], [(3, ⟨3, [1]⟩)]⟩ 3).2.buffer_map 3 = some ⟨3, [1]⟩ :=
  ⟨(registry_idempotent ⟨[3], [(3, ⟨3, [1]⟩)]⟩ 3).1,
   (registry_idempotent ⟨[3], [(3, ⟨3, [1]⟩)]⟩ 3).2.1 (by decide),
   (registry_idempotent ⟨[3], [(3, ⟨3, [1]⟩)]⟩ 3).2.2.1 ⟨3, [1]⟩ (by decide)⟩
